import Mathlib

/-!
Verification of the knowledge-recall core of this repository.

The repository slice under verification consists of the skills listing
endpoint (`openhands/server/routes/skills.py`), the unit tests for the
disabled-microagents feature of the `Memory` recall engine, and the
migration adding the `disabled_microagents` column.  The `Memory` engine
itself and the event stream are not part of the visible slice, so their
operations are modelled from the specification (each such definition says
so in its doc comment); the skills listing endpoint is embedded directly
from its source.
-/

/-- Kind of a microagent fragment, mirroring `MicroagentType` in the code:
REPO_KNOWLEDGE (value "repo"), KNOWLEDGE (value "knowledge"), TASK
(value "task"). -/
inductive MicroagentType where
  | repoKnowledge
  | knowledge
  | task
deriving DecidableEq, Repr

/-- Tool-invocation configuration attached to some REPO_INSTRUCTION
fragments, mirroring `MCPConfig` (a list of stdio server descriptions is
all the tests exercise). -/
structure MCPConfig where
  stdio_servers : List String
deriving DecidableEq, Repr

/-- A microagent fragment record: identifier, kind, body text, trigger
keywords (meaningful only for KNOWLEDGE kind) and optional tool
configuration.  Mirrors the data model of `BaseMicroagent` /
`MicroagentMetadata` as used by the tests. -/
structure Fragment where
  name : String
  kind : MicroagentType
  content : String
  triggers : List String
  mcp_tools : Option MCPConfig
deriving DecidableEq, Repr

/-- Decides whether `needle` occurs at the start of `hay` (character
lists). -/
def leadsChars : List Char → List Char → Bool
  | [], _ => true
  | _ :: _, [] => false
  | a :: as, b :: bs => a == b && leadsChars as bs

/-- Decides whether `needle` occurs contiguously anywhere inside `hay`
(character lists): the substring containment used by trigger matching. -/
def occursChars (needle : List Char) : List Char → Bool
  | [] => needle.isEmpty
  | b :: bs => leadsChars needle (b :: bs) || occursChars needle bs

/-- The lowercased character sequence of a string (ASCII case folding, as
performed by `Char.toLower`). -/
def lowerChars (s : String) : List Char :=
  s.toList.map Char.toLower

/-- Modelled from the spec: case-insensitive substring containment used by
trigger matching — "a trigger matches if its lowercase form appears
anywhere in the lowercased query" (the code for
`KnowledgeMicroagent.match_trigger` is outside the visible slice). -/
def triggerMatches (query trigger : String) : Bool :=
  occursChars (lowerChars trigger) (lowerChars query)

/-- Modelled from the spec: find the first trigger of a KNOWLEDGE fragment
that matches the query, mirroring `KnowledgeMicroagent.match_trigger`
(outside the visible slice); `none` when no trigger matches. -/
def match_trigger (message : String) (triggers : List String) : Option String :=
  triggers.find? (fun t => triggerMatches message t)

/-- Modelled from the spec: `Memory._find_microagent_knowledge` (outside
the visible slice, exercised by the tests).  Walks the knowledge registry
in iteration order, skips fragments whose identifier is in the exclusion
list `E`, and keeps each surviving KNOWLEDGE fragment with at least one
matching trigger, once, in registry order. -/
def find_microagent_knowledge (query : String) (E : List String) :
    List Fragment → List Fragment
  | [] => []
  | f :: rest =>
    if f.kind == MicroagentType.knowledge && !(E.contains f.name)
        && (match_trigger query f.triggers).isSome then
      f :: find_microagent_knowledge query E rest
    else
      find_microagent_knowledge query E rest

/-- Modelled from the spec: the repo-instruction text assembled by a
WORKSPACE_CONTEXT recall (the assembly code in `Memory` is outside the
visible slice).  Concatenates, in registry iteration order, the bodies of
the REPO_INSTRUCTION fragments whose identifier is not in the exclusion
list `E`. -/
def repoInstructions (E : List String) : List Fragment → String
  | [] => ""
  | f :: rest =>
    if f.kind == MicroagentType.repoKnowledge && !(E.contains f.name) then
      f.content ++ repoInstructions E rest
    else
      repoInstructions E rest

/-- Modelled from the spec: `Memory.get_microagent_mcp_tools` (outside the
visible slice, exercised by the tests).  The ordered list of the tool
configurations present on surviving (non-excluded) REPO_INSTRUCTION
fragments. -/
def get_microagent_mcp_tools (E : List String) : List Fragment → List MCPConfig
  | [] => []
  | f :: rest =>
    if f.kind == MicroagentType.repoKnowledge && !(E.contains f.name) then
      match f.mcp_tools with
      | some cfg => cfg :: get_microagent_mcp_tools E rest
      | none => get_microagent_mcp_tools E rest
    else
      get_microagent_mcp_tools E rest

/-- Order-preserving concatenation of a list of strings; the spec-side
description of the instruction text ("the full, order-preserved
concatenation of the bodies"). -/
def concatAll : List String → String
  | [] => ""
  | s :: rest => s ++ concatAll rest

/-- The two recall kinds, mirroring `RecallType` in the code
(WORKSPACE_CONTEXT and KEYWORD_TRIGGER / knowledge recall). -/
inductive RecallType where
  | workspaceContext
  | keywordTrigger
deriving DecidableEq, Repr

/-- A recall request event payload: free-text query and recall kind,
mirroring `RecallAction`. -/
structure RecallRequest where
  query : String
  kind : RecallType
deriving DecidableEq, Repr

/-- A recall result event payload: concatenated repository-instruction
text and the ordered list of matched knowledge fragments, mirroring
`RecallObservation`. -/
structure RecallResult where
  repo_instructions : String
  matched_fragments : List Fragment
deriving DecidableEq, Repr

/-- Modelled from the spec: the recall engine state (the `Memory` class is
outside the visible slice).  Holds the optional workspace context
(repository name and working directory), the fragment registry, and the
exclusion list fixed at construction. -/
structure Memory where
  repository_info : Option (String × String)
  microagents : List Fragment
  disabled_microagents : List String
deriving DecidableEq, Repr

/-- Modelled from the spec: engine construction, mirroring
`Memory.__init__` whose `disabled_microagents` parameter defaults to
`None` when omitted and is normalized so that an absent input and an
explicit empty list both become the empty exclusion list.  Workspace
context starts unset. -/
def Memory.init (microagents : List Fragment)
    (disabled_microagents : Option (List String)) : Memory :=
  { repository_info := none
    microagents := microagents
    disabled_microagents :=
      match disabled_microagents with
      | none => []
      | some l => l }

/-- Modelled from the spec: `Memory.set_repository_info`, the explicit
setter that installs the workspace context (repository name and working
directory) on the engine. -/
def set_repository_info (s : Memory) (repo_name repo_directory : String) :
    Memory :=
  { s with repository_info := some (repo_name, repo_directory) }

/-- Modelled from the spec: the engine reaction to a RecallRequest event,
returning the list of RecallResult events it appends.  A
WORKSPACE_CONTEXT request produces exactly one result built from the
surviving REPO_INSTRUCTION fragments, but only once workspace context has
been set — before that it is a deferred no-op producing nothing.  A
KEYWORD_TRIGGER request always produces exactly one result carrying the
matched knowledge fragments (possibly an empty list). -/
def handleRecall (s : Memory) (req : RecallRequest) : List RecallResult :=
  match req.kind with
  | RecallType.workspaceContext =>
    match s.repository_info with
    | none => []
    | some _ =>
      [{ repo_instructions := repoInstructions s.disabled_microagents s.microagents
         matched_fragments := [] }]
  | RecallType.keywordTrigger =>
    [{ repo_instructions := ""
       matched_fragments :=
         find_microagent_knowledge req.query s.disabled_microagents s.microagents }]

/-- The string value of a microagent type, mirroring the Python enum
values (`repo_agent.type.value` and friends in `skills.py`). -/
def typeValue : MicroagentType → String
  | MicroagentType.repoKnowledge => "repo"
  | MicroagentType.knowledge => "knowledge"
  | MicroagentType.task => "task"

/-- A microagent as handed to the skills route by the loader: the fields
`skills.py` reads are the name, the type and the trigger metadata. -/
structure Microagent where
  name : String
  type : MicroagentType
  triggers : List String
deriving DecidableEq, Repr

/-- Embeds `SkillInfo` from `skills.py`: name, type value, source tag
("global" or "user"), and optional triggers (`None` when absent). -/
structure SkillInfo where
  name : String
  type : String
  source : String
  triggers : Option (List String)
deriving DecidableEq, Repr

/-- Embeds `SkillListResponse` from `skills.py`. -/
structure SkillListResponse where
  skills : List SkillInfo
deriving DecidableEq, Repr

/-- The skill record `skills.py` builds for a repo agent: no `triggers`
argument is passed, so the field keeps its default `None`. -/
def repoSkillInfo (source : String) (a : Microagent) : SkillInfo :=
  { name := a.name, type := typeValue a.type, source := source, triggers := none }

/-- The skill record `skills.py` builds for a knowledge agent: `triggers`
is the metadata list when it is non-empty (truthy) and `None` otherwise
(lines 52-56 and 80-84 of `skills.py`). -/
def knowledgeSkillInfo (source : String) (a : Microagent) : SkillInfo :=
  { name := a.name, type := typeValue a.type, source := source
    triggers := if a.triggers.isEmpty then none else some a.triggers }

/-- The skill records appended for one origin in `skills.py`: first every
repo agent, then every knowledge agent, in loader iteration order. -/
def skillsFromOrigin (source : String)
    (repo_agents knowledge_agents : List Microagent) : List SkillInfo :=
  repo_agents.map (repoSkillInfo source)
    ++ knowledge_agents.map (knowledgeSkillInfo source)

/-- One `try` block of `skills.py`: when the loader raises, the except
clause only logs a warning and the origin contributes no skills. -/
def originSkills (source : String) :
    Except String (List Microagent × List Microagent) → List SkillInfo
  | Except.ok (r, k) => skillsFromOrigin source r k
  | Except.error _ => []

/-- Strict lexicographic order on character lists, the order Python uses
to compare strings. -/
def charsLt : List Char → List Char → Bool
  | _, [] => false
  | [], _ :: _ => true
  | a :: as, b :: bs => a < b || (a == b && charsLt as bs)

/-- Reflexive lexicographic order on character lists. -/
def charsLe : List Char → List Char → Bool
  | [], _ => true
  | _ :: _, [] => false
  | a :: as, b :: bs => a < b || (a == b && charsLe as bs)

/-- The sort key comparison of `skills.py` line 97: Python tuple order on
`(s.source, s.name)` — strictly smaller source, or equal source and name
no larger. -/
def skillLe (a b : SkillInfo) : Bool :=
  charsLt a.source.toList b.source.toList
    || (a.source == b.source && charsLe a.name.toList b.name.toList)

/-- The `skills.sort(key=...)` call of `skills.py` line 97: a stable sort
of the accumulated skill list under the `(source, name)` key order. -/
def sortSkills (l : List SkillInfo) : List SkillInfo :=
  l.insertionSort (fun a b => skillLe a b)

/-- Embeds `list_skills` from `skills.py` as a function of the two loader
outcomes (global directory first, then user directory): each failing
origin contributes nothing, and the accumulated list is sorted by
`(source, name)`. -/
def list_skills
    (global_load user_load : Except String (List Microagent × List Microagent)) :
    SkillListResponse :=
  { skills := sortSkills (originSkills "global" global_load ++ originSkills "user" user_load) }

/-- Finding a witness succeeds exactly when some element satisfies the
predicate. -/
lemma find_isSome_eq_any {α : Type} (p : α → Bool) (l : List α) :
    (l.find? p).isSome = l.any p := by
  induction l with
  | nil => rfl
  | cons x xs ih =>
    cases h : p x with
    | true => simp [List.find?_cons_of_pos xs h, h]
    | false =>
      have h2 : ¬ p x = true := by simp [h]
      simp [List.find?_cons_of_neg xs h2, h, ih]

/-- The knowledge-matching walk is the filter of the registry by the
predicate "surviving KNOWLEDGE fragment with a matching trigger". -/
lemma find_microagent_knowledge_eq_filter (q : String) (E : List String)
    (F : List Fragment) :
    find_microagent_knowledge q E F
      = F.filter (fun f => f.kind == MicroagentType.knowledge
          && !(E.contains f.name) && f.triggers.any (fun t => triggerMatches q t)) := by
  induction F with
  | nil => rfl
  | cons f rest ih =>
    simp only [find_microagent_knowledge, match_trigger, find_isSome_eq_any,
      List.filter_cons, ih]

/-- The assembled repo-instruction text is the concatenation, in registry
order, of the bodies of the surviving REPO_INSTRUCTION fragments. -/
lemma repoInstructions_eq_concat (E : List String) (F : List Fragment) :
    repoInstructions E F
      = concatAll ((F.filter (fun f => f.kind == MicroagentType.repoKnowledge
          && !(E.contains f.name))).map Fragment.content) := by
  induction F with
  | nil => rfl
  | cons f rest ih =>
    simp only [repoInstructions, List.filter_cons]
    by_cases h : (f.kind == MicroagentType.repoKnowledge && !(E.contains f.name)) = true
    · rw [if_pos h, if_pos h]
      simp only [List.map_cons, concatAll, ih]
    · rw [if_neg h, if_neg h, ih]

/-- The tool-configuration walk collects exactly the configurations
present on the surviving REPO_INSTRUCTION fragments, in order. -/
lemma get_microagent_mcp_tools_eq_filterMap (E : List String) (F : List Fragment) :
    get_microagent_mcp_tools E F
      = (F.filter (fun f => f.kind == MicroagentType.repoKnowledge
          && !(E.contains f.name))).filterMap Fragment.mcp_tools := by
  induction F with
  | nil => rfl
  | cons f rest ih =>
    simp only [get_microagent_mcp_tools, List.filter_cons]
    by_cases h : (f.kind == MicroagentType.repoKnowledge && !(E.contains f.name)) = true
    · rw [if_pos h, if_pos h, List.filterMap_cons]
      cases hm : f.mcp_tools with
      | none => simp only [hm, ih]
      | some cfg => simp only [hm, ih]
    · rw [if_neg h, if_neg h, ih]

/-- Collecting the present values of an optional field keeps one entry per
element on which the field is present. -/
lemma length_filterMap_isSome {α β : Type} (g : α → Option β) (l : List α) :
    (l.filterMap g).length = (l.filter (fun x => (g x).isSome)).length := by
  induction l with
  | nil => rfl
  | cons x xs ih =>
    cases hx : g x with
    | none => simp [List.filterMap_cons, List.filter_cons, hx, ih]
    | some b => simp [List.filterMap_cons, List.filter_cons, hx, ih]

/-- The executable lexicographic comparison agrees with the lexicographic
order on character lists. -/
lemma charsLt_iff (x y : List Char) : charsLt x y = true ↔ x < y := by
  induction x generalizing y with
  | nil =>
    cases y with
    | nil => exact iff_of_false (fun h => Bool.noConfusion h) (fun h => by cases h)
    | cons b bs => exact iff_of_true rfl (List.nil_lt_cons b bs)
  | cons a as ih =>
    cases y with
    | nil => exact iff_of_false (fun h => Bool.noConfusion h) (fun h => by cases h)
    | cons b bs =>
      simp only [charsLt, Bool.or_eq_true, Bool.and_eq_true, beq_iff_eq,
        decide_eq_true_eq, ih]
      constructor
      · rintro (hab | ⟨rfl, h⟩)
        · exact List.Lex.rel hab
        · exact List.Lex.cons h
      · intro h
        cases h with
        | rel h => exact Or.inl h
        | cons h => exact Or.inr ⟨rfl, h⟩

/-- The reflexive comparison is the negation of the strict comparison the
other way around. -/
lemma charsLe_eq_not_charsLt (x y : List Char) : charsLe x y = !(charsLt y x) := by
  induction x generalizing y with
  | nil => cases y <;> rfl
  | cons a as ih =>
    cases y with
    | nil => rfl
    | cons b bs =>
      simp only [charsLe, charsLt, ih]
      rcases lt_trichotomy a b with h | h | h
      · have h1 : decide (a < b) = true := by simpa using h
        have h2 : decide (b < a) = false := by simp [not_lt.mpr (le_of_lt h)]
        have h3 : (b == a) = false := by simp [ne_of_gt h]
        simp [h1, h2, h3]
      · subst h
        simp [lt_irrefl]
      · have h1 : decide (a < b) = false := by simp [not_lt.mpr (le_of_lt h)]
        have h2 : decide (b < a) = true := by simpa using h
        have h3 : (a == b) = false := by simp [ne_of_gt h]
        simp [h1, h2, h3]

/-- The executable reflexive comparison agrees with the order on character
lists. -/
lemma charsLe_iff (x y : List Char) : charsLe x y = true ↔ x ≤ y := by
  rw [charsLe_eq_not_charsLt]
  constructor
  · intro h
    have : charsLt y x ≠ true := by
      intro hc
      rw [hc] at h
      exact Bool.noConfusion h
    exact not_lt.mp (fun hlt => this ((charsLt_iff y x).mpr hlt))
  · intro h
    have : charsLt y x = false := by
      rcases Bool.eq_false_or_eq_true (charsLt y x) with ht | hf
      · exact absurd ((charsLt_iff y x).mp ht) (not_lt.mpr h)
      · exact hf
    rw [this]
    rfl

/-- The sort key comparison agrees with "strictly smaller source, or equal
source and name no larger" under the string order. -/
lemma skillLe_iff (a b : SkillInfo) :
    skillLe a b = true
      ↔ (a.source < b.source ∨ (a.source = b.source ∧ a.name ≤ b.name)) := by
  simp only [skillLe, Bool.or_eq_true, Bool.and_eq_true, beq_iff_eq, charsLt_iff,
    charsLe_iff, String.lt_iff_toList_lt, String.le_iff_toList_le]

/-- The sort key comparison is transitive. -/
lemma skillLe_trans {a b c : SkillInfo} (h1 : skillLe a b = true)
    (h2 : skillLe b c = true) : skillLe a c = true := by
  rw [skillLe_iff] at h1 h2 ⊢
  rcases h1 with h1 | ⟨e1, n1⟩
  · rcases h2 with h2 | ⟨e2, n2⟩
    · exact Or.inl (lt_trans h1 h2)
    · exact Or.inl (by rw [← e2]; exact h1)
  · rcases h2 with h2 | ⟨e2, n2⟩
    · exact Or.inl (by rw [e1]; exact h2)
    · exact Or.inr ⟨e1.trans e2, le_trans n1 n2⟩

/-- The sort key comparison is total. -/
lemma skillLe_total (a b : SkillInfo) : skillLe a b = true ∨ skillLe b a = true := by
  rw [skillLe_iff, skillLe_iff]
  rcases lt_trichotomy a.source b.source with h | h | h
  · exact Or.inl (Or.inl h)
  · rcases le_total a.name b.name with hn | hn
    · exact Or.inl (Or.inr ⟨h, hn⟩)
    · exact Or.inr (Or.inr ⟨h.symm, hn⟩)
  · exact Or.inr (Or.inl h)

/-- The sorting step produces a list ordered under the sort key. -/
lemma sortSkills_sorted (l : List SkillInfo) :
    (sortSkills l).Pairwise (fun a b => skillLe a b = true) := by
  haveI : IsTotal SkillInfo (fun a b => skillLe a b = true) := ⟨skillLe_total⟩
  haveI : IsTrans SkillInfo (fun a b => skillLe a b = true) :=
    ⟨fun _ _ _ => skillLe_trans⟩
  exact List.sorted_insertionSort _ l

/-- The sorting step permutes the accumulated skill list. -/
lemma sortSkills_perm (l : List SkillInfo) : (sortSkills l).Perm l :=
  List.perm_insertionSort _ l

/-- Every skill built for one origin carries that origin as its source. -/
lemma skillsFromOrigin_source {src : String} {r k : List Microagent}
    {s : SkillInfo} (h : s ∈ skillsFromOrigin src r k) : s.source = src := by
  simp only [skillsFromOrigin, List.mem_append, List.mem_map] at h
  rcases h with ⟨a, _, rfl⟩ | ⟨a, _, rfl⟩ <;> rfl

/-- No skill record ever carries an explicit empty trigger list. -/
lemma skillsFromOrigin_triggers {src : String} {r k : List Microagent}
    {s : SkillInfo} (h : s ∈ skillsFromOrigin src r k) :
    s.triggers ≠ some [] := by
  simp only [skillsFromOrigin, List.mem_append, List.mem_map] at h
  rcases h with ⟨a, _, rfl⟩ | ⟨a, ha, rfl⟩
  · simp [repoSkillInfo]
  · simp only [knowledgeSkillInfo]
    cases he : a.triggers.isEmpty with
    | true => simp [he]
    | false =>
      simp only [he, Bool.false_eq_true, if_false]
      intro hc
      have : a.triggers = [] := by
        injection hc
      rw [this] at he
      exact Bool.noConfusion he

/-- C1: for every exclusion set E and registry F, the repo-instruction
text of the RecallResult of a WORKSPACE_CONTEXT recall is exactly the
order-preserved concatenation of the bodies of the REPO_INSTRUCTION
fragments of F whose identifier is not in E — so no excluded fragment
contributes any body text — and the text is a function of the surviving
fragments alone. -/
theorem workspace_context_exclusion (F : List Fragment) (E : List String)
    (repo dir q : String) :
    (handleRecall ⟨some (repo, dir), F, E⟩ ⟨q, RecallType.workspaceContext⟩).map
        RecallResult.repo_instructions
      = [concatAll ((F.filter (fun f => f.kind == MicroagentType.repoKnowledge
          && !(E.contains f.name))).map Fragment.content)]
    ∧ repoInstructions E F
      = repoInstructions [] (F.filter (fun f => !(E.contains f.name))) := by
  constructor
  · simp only [handleRecall, List.map_cons, List.map_nil, repoInstructions_eq_concat]
  · rw [repoInstructions_eq_concat, repoInstructions_eq_concat, List.filter_filter]
    have : (fun f => (f.kind == MicroagentType.repoKnowledge
          && !(([] : List String).contains f.name)) && !(E.contains f.name))
        = (fun f : Fragment => f.kind == MicroagentType.repoKnowledge
          && !(E.contains f.name)) := by
      funext f
      simp
    rw [this]

/-- C2: for every query, registry and exclusion set, the knowledge
matching operation returns exactly the KNOWLEDGE fragments of F \ E with
at least one trigger whose lowercase form occurs in the lowercased query,
each once (the result has no duplicates when registry names are unique),
preserving registry iteration order (the result is a sublist of the
registry). -/
theorem knowledge_matching (q : String) (E : List String) (F : List Fragment)
    (h : (F.map Fragment.name).Nodup) :
    find_microagent_knowledge q E F
      = F.filter (fun f => f.kind == MicroagentType.knowledge
          && !(E.contains f.name) && f.triggers.any (fun t => triggerMatches q t))
    ∧ (find_microagent_knowledge q E F).Sublist F
    ∧ (find_microagent_knowledge q E F).Nodup := by
  refine ⟨find_microagent_knowledge_eq_filter q E F, ?_, ?_⟩
  · rw [find_microagent_knowledge_eq_filter]
    exact List.filter_sublist F
  · have hsub : (find_microagent_knowledge q E F).Sublist F := by
      rw [find_microagent_knowledge_eq_filter]
      exact List.filter_sublist F
    exact List.Nodup.sublist hsub (List.Nodup.of_map Fragment.name h)

/-- Witness for `knowledge_matching` at the registry of the
disabled-knowledge unit test: only the non-excluded fragment matches. -/
theorem knowledge_matching_witness :
    ((([⟨"test_knowledge", MicroagentType.knowledge,
          "Knowledge content about testing", ["testword"], none⟩,
        ⟨"active_knowledge", MicroagentType.knowledge,
          "Active knowledge content", ["testword"], none⟩] : List Fragment).map
        Fragment.name).Nodup)
    ∧ (find_microagent_knowledge "hello testword" ["test_knowledge"]
        [⟨"test_knowledge", MicroagentType.knowledge,
            "Knowledge content about testing", ["testword"], none⟩,
          ⟨"active_knowledge", MicroagentType.knowledge,
            "Active knowledge content", ["testword"], none⟩]).map Fragment.name
      = ["active_knowledge"] := by
  refine ⟨by decide, ?_⟩
  rw [(knowledge_matching "hello testword" ["test_knowledge"]
    [⟨"test_knowledge", MicroagentType.knowledge,
        "Knowledge content about testing", ["testword"], none⟩,
      ⟨"active_knowledge", MicroagentType.knowledge,
        "Active knowledge content", ["testword"], none⟩] (by decide)).1]
  decide

/-- C3: the aggregate tool-configuration list holds exactly the
configurations present on surviving REPO_INSTRUCTION fragments, its
length is the number of surviving REPO_INSTRUCTION fragments carrying a
configuration, and it is a function of the surviving fragments alone —
an excluded fragment's configuration never appears, even when a
surviving fragment carries an identical value. -/
theorem tool_configs_exclusion (F : List Fragment) (E : List String) :
    get_microagent_mcp_tools E F
      = (F.filter (fun f => f.kind == MicroagentType.repoKnowledge
          && !(E.contains f.name))).filterMap Fragment.mcp_tools
    ∧ (get_microagent_mcp_tools E F).length
      = (F.filter (fun f => (f.kind == MicroagentType.repoKnowledge
          && !(E.contains f.name)) && f.mcp_tools.isSome)).length
    ∧ get_microagent_mcp_tools E F
      = get_microagent_mcp_tools [] (F.filter (fun f => !(E.contains f.name))) := by
  refine ⟨get_microagent_mcp_tools_eq_filterMap E F, ?_, ?_⟩
  · rw [get_microagent_mcp_tools_eq_filterMap, length_filterMap_isSome,
      List.filter_filter]
    congr 1
    congr 1
    funext f
    exact Bool.and_comm _ _
  · rw [get_microagent_mcp_tools_eq_filterMap, get_microagent_mcp_tools_eq_filterMap,
      List.filter_filter]
    have : (fun f => (f.kind == MicroagentType.repoKnowledge
          && !(([] : List String).contains f.name)) && !(E.contains f.name))
        = (fun f : Fragment => f.kind == MicroagentType.repoKnowledge
          && !(E.contains f.name)) := by
      funext f
      simp
    rw [this]

/-- C4: when loading one origin fails, the listing returns exactly what it
returns when that origin yields no fragments — the other origin's skills
survive — and when both origins fail the response is well-formed with an
empty skill list; in every case the endpoint returns a response rather
than an error (the embedded function is total). -/
theorem list_skills_load_failure
    (g u : Except String (List Microagent × List Microagent)) (e1 e2 : String) :
    list_skills (Except.error e1) u = list_skills (Except.ok ([], [])) u
    ∧ list_skills g (Except.error e2) = list_skills g (Except.ok ([], []))
    ∧ list_skills (Except.error e1) (Except.error e2) = { skills := [] } := by
  refine ⟨rfl, ?_, rfl⟩
  cases g with
  | error e => rfl
  | ok pr => rfl

/-- C5: the listing response is sorted by source then name — consecutive
skills satisfy "strictly smaller source, or equal source and name no
larger" — and every skill's source is "global" or "user", so every
global skill precedes every user skill and names ascend within an
origin. -/
theorem skills_sorted_by_source_then_name
    (g u : Except String (List Microagent × List Microagent)) :
    (list_skills g u).skills.Pairwise
      (fun a b => a.source < b.source ∨ (a.source = b.source ∧ a.name ≤ b.name))
    ∧ ((list_skills g u).skills.all
        (fun s => s.source == "global" || s.source == "user")) = true := by
  constructor
  · exact (sortSkills_sorted _).imp (fun h => (skillLe_iff _ _).mp h)
  · rw [List.all_eq_true]
    intro s hs
    have hmem : s ∈ originSkills "global" g ++ originSkills "user" u :=
      (sortSkills_perm _).mem_iff.mp hs
    rcases List.mem_append.mp hmem with h | h
    · have : s.source = "global" := by
        cases g with
        | error e => simp [originSkills] at h
        | ok pr =>
          obtain ⟨r, k⟩ := pr
          exact skillsFromOrigin_source h
      simp [this]
    · have : s.source = "user" := by
        cases u with
        | error e => simp [originSkills] at h
        | ok pr =>
          obtain ⟨r, k⟩ := pr
          exact skillsFromOrigin_source h
      simp [this]

/-- C6: constructing the engine with the exclusion input absent or an
explicit empty list yields the empty effective exclusion set, and under
it a workspace recall includes every REPO_INSTRUCTION fragment's content
and knowledge matching considers every KNOWLEDGE fragment. -/
theorem disabled_microagents_default (F : List Fragment) (q repo dir : String) :
    (Memory.init F none).disabled_microagents = []
    ∧ (Memory.init F (some [])).disabled_microagents = []
    ∧ handleRecall (set_repository_info (Memory.init F none) repo dir)
        ⟨q, RecallType.workspaceContext⟩
      = [{ repo_instructions := concatAll ((F.filter
            (fun f => f.kind == MicroagentType.repoKnowledge)).map Fragment.content)
           matched_fragments := [] }]
    ∧ find_microagent_knowledge q (Memory.init F (some [])).disabled_microagents F
      = F.filter (fun f => f.kind == MicroagentType.knowledge
          && f.triggers.any (fun t => triggerMatches q t)) := by
  refine ⟨rfl, rfl, ?_, ?_⟩
  · simp only [Memory.init, set_repository_info, handleRecall,
      repoInstructions_eq_concat]
    have : (fun f : Fragment => f.kind == MicroagentType.repoKnowledge
          && !(([] : List String).contains f.name))
        = (fun f : Fragment => f.kind == MicroagentType.repoKnowledge) := by
      funext f
      simp
    rw [this]
  · rw [show (Memory.init F (some [])).disabled_microagents = [] from rfl,
      find_microagent_knowledge_eq_filter]
    have : (fun f : Fragment => f.kind == MicroagentType.knowledge
          && !(([] : List String).contains f.name)
          && f.triggers.any (fun t => triggerMatches q t))
        = (fun f : Fragment => f.kind == MicroagentType.knowledge
          && f.triggers.any (fun t => triggerMatches q t)) := by
      funext f
      simp
    rw [this]

/-- C7: with workspace context set, every RecallRequest of either kind
yields exactly one RecallResult — even over an arbitrary (possibly empty)
registry, so an empty result does not suppress emission — and a
KEYWORD_TRIGGER request yields exactly one result even without context. -/
theorem recall_exactly_one (F : List Fragment) (E : List String)
    (repo dir q : String) (req : RecallRequest) :
    (handleRecall ⟨some (repo, dir), F, E⟩ req).length = 1
    ∧ (handleRecall ⟨none, F, E⟩ ⟨q, RecallType.keywordTrigger⟩).length = 1 := by
  constructor
  · obtain ⟨q2, k⟩ := req
    cases k <;> rfl
  · rfl

/-- C8: a WORKSPACE_CONTEXT request arriving before workspace context has
been set produces no RecallResult (a deferred no-op), and after
`set_repository_info` has installed the context the same request produces
exactly one RecallResult. -/
theorem workspace_context_requires_info (F : List Fragment) (E : List String)
    (q repo dir : String) :
    handleRecall ⟨none, F, E⟩ ⟨q, RecallType.workspaceContext⟩ = []
    ∧ (handleRecall (set_repository_info ⟨none, F, E⟩ repo dir)
        ⟨q, RecallType.workspaceContext⟩).length = 1 :=
  ⟨rfl, rfl⟩

/-- C10: a repo skill record always reports `triggers` as absent; a
knowledge skill record reports absent triggers when the underlying
trigger list is empty and exactly that list when it is non-empty; and no
listing response ever carries an explicit empty trigger list. -/
theorem skill_triggers_null (src : String) (a : Microagent)
    (g u : Except String (List Microagent × List Microagent)) :
    (repoSkillInfo src a).triggers = none
    ∧ (a.triggers = [] → (knowledgeSkillInfo src a).triggers = none)
    ∧ (a.triggers ≠ [] → (knowledgeSkillInfo src a).triggers = some a.triggers)
    ∧ ((list_skills g u).skills.all
        (fun s => !(s.triggers == some ([] : List String)))) = true := by
  refine ⟨rfl, ?_, ?_, ?_⟩
  · intro h
    simp [knowledgeSkillInfo, h]
  · intro h
    simp [knowledgeSkillInfo, List.isEmpty_iff, h]
  · rw [List.all_eq_true]
    intro s hs
    have hmem : s ∈ originSkills "global" g ++ originSkills "user" u :=
      (sortSkills_perm _).mem_iff.mp hs
    have hne : s.triggers ≠ some [] := by
      rcases List.mem_append.mp hmem with h | h
      · cases g with
        | error e => simp [originSkills] at h
        | ok pr =>
          obtain ⟨r, k⟩ := pr
          exact skillsFromOrigin_triggers h
      · cases u with
        | error e => simp [originSkills] at h
        | ok pr =>
          obtain ⟨r, k⟩ := pr
          exact skillsFromOrigin_triggers h
    simp [hne]

/-- Witness for `skill_triggers_null` at the microagents of the skills
endpoint unit test: a non-empty trigger list is reported verbatim and an
empty one is reported as absent. -/
theorem skill_triggers_null_witness :
    (knowledgeSkillInfo "global"
        ⟨"test_knowledge", MicroagentType.knowledge, ["testword"]⟩).triggers
      = some ["testword"]
    ∧ (knowledgeSkillInfo "global"
        ⟨"bare_knowledge", MicroagentType.knowledge, []⟩).triggers = none :=
  ⟨(skill_triggers_null "global"
      ⟨"test_knowledge", MicroagentType.knowledge, ["testword"]⟩
      (Except.error "no global dir") (Except.error "no user dir")).2.2.1
      (by decide),
   (skill_triggers_null "global"
      ⟨"bare_knowledge", MicroagentType.knowledge, []⟩
      (Except.error "no global dir") (Except.error "no user dir")).2.1 rfl⟩
